import Mathlib

set_option maxHeartbeats 1000000

/-!
Shallow embedding of the `backup` tool (`backup/main.py` of jsvana/backup).

Modelling choices:
* A filesystem path is a list of segments (`FPath`).  Real directory entries
  can never be `""`, `"."`, `".."` or contain a slash; `cleanSeg` captures
  that, and theorems about real trees hypothesise it.
* The filesystem is an association list from absolute paths to file data,
  together with the process working directory and a clock (`Sys`).
* File contents (`FData`) are raw bytes, a gzip tar archive (abstracted to
  its member list, as the tar container format is out of scope), or a JSON
  manifest document (the JSON codec is abstracted to the identity on the
  `Manifest` record; the concrete text produced by `json.dump` is modelled
  separately by `serializeManifest`).
* The digest algorithm (`hashlib`) is out of scope per the spec and is a
  parameter `hash : String → FData → String` of every pipeline; theorems
  hold for an arbitrary digest function.
* `os.path.abspath` is modelled by `normPath` on segments, and
  `os.path.commonprefix` character-wise on the rendered absolute path
  string, exactly as the source's traversal guard uses them.
* Python exceptions that `main.py` never catches are modelled as the
  `RResult.exn` outcome; `sys.exit` codes as `RResult.exit`.
-/

/-- A filesystem path, as a list of segments. -/
abbrev FPath := List String

/-- One entry of a manifest: a backed-up file path (relative to the backup
base) and its digest (`ManifestFile` TypedDict, main.py line 14). -/
structure ManifestFile where
  path : FPath
  checksum : String
deriving DecidableEq, Repr

/-- The manifest record (`Manifest` TypedDict, main.py lines 15-24). -/
structure Manifest where
  archive_name : FPath
  checksum : String
  checksum_algorithm : String
  creation_time : Nat
  files : List ManifestFile
deriving DecidableEq, Repr

/-- Contents of a file on disk.  `tar` abstracts the gzip tar container to
its list of members (name, content); `json` abstracts a serialized manifest
document. -/
inductive FData where
  | bytes (b : List Nat)
  | tar (members : List (FPath × FData))
  | json (m : Manifest)

instance : Inhabited FData := ⟨.bytes []⟩

/-- Process state: the filesystem, the current working directory (an
absolute path) and the wall clock (for `creation_time`). -/
structure Sys where
  fs : List (FPath × FData)
  cwd : FPath
  clock : Nat

/-- How an invocation ends: a returned exit code, or an uncaught Python
exception. -/
inductive RResult where
  | exit (code : Nat)
  | exn (msg : String)
deriving DecidableEq, Repr

/-- Observable outcome of one command: result, stdout lines, stderr lines,
and the final process state. -/
structure RunOut where
  res : RResult
  out : List String
  err : List String
  sys : Sys

/-- `os.EX_OK`. -/
def EX_OK : Nat := 0

/-- `os.EX_USAGE`. -/
def EX_USAGE : Nat := 64

/-- `os.EX_DATAERR`. -/
def EX_DATAERR : Nat := 65

/-- A real directory-entry name: nonempty, not a dot link, no slash. -/
def cleanSeg (s : String) : Bool :=
  s ≠ "" && s ≠ "." && s ≠ ".." && !(s.data.any (fun c => c = '/'))

/-- All segments of a path are real directory-entry names. -/
def cleanPath (p : FPath) : Bool := p.all cleanSeg

/-- All keys of a filesystem are clean paths. -/
def cleanFs (fs : List (FPath × FData)) : Bool :=
  fs.all (fun kv => cleanPath kv.1)

/-- One step of path normalization (as done by `os.path.abspath` /
`os.path.normpath`): drop empty and `.` segments, let `..` pop. -/
def normStep (acc : List String) (s : String) : List String :=
  if s = "" || s = "." then acc
  else if s = ".." then acc.dropLast
  else acc ++ [s]

/-- Normalize an absolute path given as segments (`os.path.normpath` on an
absolute path; `..` at the root stays at the root). -/
def normPath (p : List String) : FPath :=
  p.foldl normStep []

/-- Resolve a (possibly relative, possibly dot-ridden) path argument
against a working directory, as the OS does when a file is opened. -/
def resolveArg (cwd : FPath) (arg : List String) : FPath :=
  normPath (cwd ++ arg)

/-- Append a string suffix to the final segment of a path name, as Python's
`f"{args.archive_name}.tar.gz"` does on the rendered path. -/
def withSuffix : List String → String → List String
  | [], suf => [suf]
  | [x], suf => [x ++ suf]
  | x :: y :: xs, suf => x :: withSuffix (y :: xs) suf

/-- Render an absolute path the way `os.path.abspath` returns it:
slash-separated segments. -/
def pathStr (p : FPath) : String :=
  p.foldl (fun acc s => acc ++ "/" ++ s) ""

/-- Render a relative path the way `str(PurePath)` does. -/
def relStr (p : FPath) : String := String.intercalate "/" p

/-- Read a file (`open(...)`): first binding of the path in the
association list. -/
def fsRead (fs : List (FPath × FData)) (p : FPath) : Option FData :=
  (fs.find? (fun kv => kv.1 == p)).map (fun kv => kv.2)

/-- Read a file that is known to exist (callers establish presence). -/
def fsReadD (fs : List (FPath × FData)) (p : FPath) : FData :=
  (fsRead fs p).getD (.bytes [])

/-- Create or overwrite a file. -/
def fsWrite (fs : List (FPath × FData)) (p : FPath) (d : FData) :
    List (FPath × FData) :=
  (p, d) :: fs.filter (fun kv => !(kv.1 == p))

/-- `p` is a proper descendant of directory `root`. -/
def underDir (root p : FPath) : Bool :=
  root.isPrefixOf p && !(p == root)

/-- `os.walk(root)` over the modelled filesystem: every regular file
strictly below `root`, in filesystem order. -/
def walkFiles (fs : List (FPath × FData)) (root : FPath) : List FPath :=
  (fs.map (fun kv => kv.1)).filter (fun p => underDir root p)

/-- The per-file pass of `cmd_backup` (main.py lines 96-112): for each
discovered file, compute the path relative to the working directory
(`Path.resolve().relative_to(cwd)`, a `ValueError` when the file is not
below the working directory) and its digest.  Reads happen through the
walk-produced name, which the OS resolves to the discovered file itself. -/
def backupScan (hash : String → FData → String)
    (fs : List (FPath × FData)) (cwd : FPath) (alg : String) :
    List FPath → Except String (List ManifestFile)
  | [] => .ok []
  | q :: qs =>
    if cwd.isPrefixOf q then
      match fsRead fs q with
      | none => .error "FileNotFoundError"
      | some d =>
        (backupScan hash fs cwd alg qs).map
          (fun rest => ⟨q.drop cwd.length, hash alg d⟩ :: rest)
    else .error "ValueError: path is not in the subpath of cwd"

/-- `cmd_backup` (main.py lines 84-123): walk the target, build the file
entries, write the archive (`tar_files`, lines 78-81), digest the whole
just-written archive, then write the manifest document. -/
def cmd_backup (hash : String → FData → String) (s : Sys)
    (targetArg archArg : List String) (alg : String) : RunOut :=
  let targetAbs := resolveArg s.cwd targetArg
  let qs := walkFiles s.fs targetAbs
  match backupScan hash s.fs s.cwd alg qs with
  | .error e => ⟨.exn e, [], [], s⟩
  | .ok entries =>
    let members := entries.map
      (fun e => (e.path, fsReadD s.fs (resolveArg s.cwd e.path)))
    let archName := withSuffix archArg ".tar.gz"
    let archPath := resolveArg s.cwd archName
    let fs1 := fsWrite s.fs archPath (.tar members)
    let m : Manifest :=
      ⟨archName, hash alg (fsReadD fs1 archPath), alg, s.clock, entries⟩
    let manPath := resolveArg s.cwd (withSuffix archArg ".manifest")
    ⟨.exit EX_OK, [], [], ⟨fsWrite fs1 manPath (.json m), s.cwd, s.clock⟩⟩

/-- `os.path.commonprefix` on two strings: the longest common character
prefix (main.py line 147). -/
def commonprefixChars : List Char → List Char → List Char
  | x :: xs, y :: ys => if x = y then x :: commonprefixChars xs ys else []
  | _, _ => []

/-- `is_within_directory` (main.py lines 142-149): string-level common
prefix comparison of the two absolute paths. -/
def is_within_directory (dir target : String) : Bool :=
  commonprefixChars dir.data target.data == dir.data

/-- Destination of extracting member `name` with `extractall(".")` while
the working directory is `cwd`: `os.path.join(".", name)` resolved by the
OS. -/
def extTarget (cwd : FPath) (name : FPath) : FPath :=
  normPath (cwd ++ "." :: name)

/-- `safe_extract` (main.py lines 151-161): check every member's resolved
destination against the working directory with the common-prefix test;
raise before anything is written if any member fails, otherwise extract
all members in order. -/
def safe_extract (members : List (FPath × FData)) (s : Sys) :
    Except String Unit × Sys :=
  let absDir := pathStr (normPath (s.cwd ++ ["."]))
  if members.all
      (fun mb => is_within_directory absDir (pathStr (extTarget s.cwd mb.1))) then
    (.ok (),
      ⟨members.foldl (fun fs mb => fsWrite fs (extTarget s.cwd mb.1) mb.2) s.fs,
        s.cwd, s.clock⟩)
  else
    (.error "Attempted Path Traversal in Tar File", s)

/-- The `cd` context manager (main.py lines 59-66): remember the working
directory, run the body in the target directory, and restore the original
working directory on every exit path. -/
def cdRun {α : Type} (target : FPath) (body : Sys → α × Sys) (s : Sys) :
    α × Sys :=
  let old := s.cwd
  let r := body ⟨s.fs, target, s.clock⟩
  (r.1, ⟨r.2.fs, old, r.2.clock⟩)

/-- Python dict insertion (`{f["path"]: f["checksum"] for f in ...}`):
replace in place when the key exists, append otherwise. -/
def dictInsert (d : List (FPath × String)) (k : FPath) (v : String) :
    List (FPath × String) :=
  if d.any (fun kv => kv.1 == k) then
    d.map (fun kv => if kv.1 == k then (k, v) else kv)
  else d ++ [(k, v)]

/-- `path_checksums` (main.py line 163): manifest entries as a dict, last
entry winning, insertion-ordered. -/
def buildDict (files : List ManifestFile) : List (FPath × String) :=
  files.foldl (fun d f => dictInsert d f.path f.checksum) []

/-- Mutable reconciliation state: `restored_paths` and `bad_checksums`
(main.py lines 165-166). -/
structure Recon where
  restored : List FPath
  bad : List (FPath × String × String)
deriving Repr

/-- The reconciliation walk of `cmd_restore` (main.py lines 168-188): for
every file found below the restore root, compute its path relative to the
root, skip it when the manifest does not list it, and otherwise recompute
its digest by opening that relative path — which the OS resolves against
the working directory, not the restore root.  A missing file raises. -/
def reconLoop (hash : String → FData → String) (alg : String)
    (dict : List (FPath × String)) (cwd root : FPath)
    (fs : List (FPath × FData)) : List FPath → Recon → Except String Recon
  | [], r => .ok r
  | q :: qs, r =>
    let rel := q.drop root.length
    match List.lookup rel dict with
    | none => reconLoop hash alg dict cwd root fs qs r
    | some expected =>
      match fsRead fs (resolveArg cwd rel) with
      | none => .error "FileNotFoundError"
      | some d =>
        if hash alg d ≠ expected then
          reconLoop hash alg dict cwd root fs qs
            ⟨r.restored, r.bad ++ [(rel, hash alg d, expected)]⟩
        else
          reconLoop hash alg dict cwd root fs qs
            ⟨r.restored ++ [rel], r.bad⟩

/-- `missing_paths` (main.py lines 190-193): every manifest path not in
`restored_paths` — including those already recorded in `bad_checksums`. -/
def missingOf (dict : List (FPath × String)) (restored : List FPath) :
    List FPath :=
  (dict.map (fun kv => kv.1)).filter (fun p => !(restored.contains p))

/-- Lexicographic order on character lists (Python string comparison). -/
def strLeChars : List Char → List Char → Bool
  | [], _ => true
  | _ :: _, [] => false
  | c :: cs, d :: ds =>
    if c.toNat < d.toNat then true
    else if d.toNat < c.toNat then false
    else strLeChars cs ds

/-- Lexicographic order on strings (Python string comparison, used by
`sorted` and `sort_keys`). -/
def strLe (a b : String) : Bool := strLeChars a.data b.data

/-- Insert into a list sorted by `le` (for Python's `sorted`). -/
def insertSorted {α : Type} (le : α → α → Bool) (x : α) :
    List α → List α
  | [] => [x]
  | y :: ys => if le x y then x :: y :: ys else y :: insertSorted le x ys

/-- Insertion sort by `le` (for Python's `sorted`). -/
def sortBy {α : Type} (le : α → α → Bool) : List α → List α
  | [] => []
  | x :: xs => insertSorted le x (sortBy le xs)

/-- Path order used by `sorted` over reconciliation paths. -/
def pathLe (a b : FPath) : Bool := strLe (relStr a) (relStr b)

/-- The archive checksum mismatch report (main.py lines 134-138). -/
def archiveMismatchMsg (expected generated : String) : String :=
  "Mismatched archive checksums. Expected: " ++ expected ++
    ", generated " ++ generated

/-- One bad-checksum line (main.py lines 200-202). -/
def badMsg (p : FPath) (generated expected : String) : String :=
  relStr p ++ ": expected " ++ expected ++ ", got " ++ generated

/-- The `Bad checksums:` report (main.py lines 196-203), paths sorted. -/
def badChecksumsMsg (bad : List (FPath × String × String)) : String :=
  "Bad checksums: " ++
    String.intercalate "\n"
      ((sortBy (fun a b => pathLe a.1 b.1) bad).map
        (fun t => badMsg t.1 t.2.1 t.2.2))

/-- The `Missing paths:` report (main.py lines 206-210), sorted. -/
def missingMsg (missing : List FPath) : String :=
  "Missing paths: " ++
    String.intercalate ", " (sortBy strLe (missing.map relStr))

/-- Reconciliation and reporting phase of `cmd_restore` (main.py lines
163-218), entered only after extraction fully succeeded. -/
def reconcile (hash : String → FData → String) (m : Manifest) (s : Sys)
    (rootArg : List String) : RunOut :=
  let root := resolveArg s.cwd rootArg
  let dict := buildDict m.files
  match reconLoop hash m.checksum_algorithm dict s.cwd root s.fs
      (walkFiles s.fs root) ⟨[], []⟩ with
  | .error e => ⟨.exn e, [], [], s⟩
  | .ok r =>
    let missing := missingOf dict r.restored
    if r.bad.isEmpty && missing.isEmpty then
      ⟨.exit EX_OK, ["Backup restored successfully"], [], s⟩
    else
      ⟨.exit EX_DATAERR, [],
        (if r.bad.isEmpty then [] else [badChecksumsMsg r.bad]) ++
          (if missing.isEmpty then [] else [missingMsg missing]) ++
          ["Backup restoration failed"], s⟩

/-- `cmd_restore` (main.py lines 126-218): load the manifest, verify the
whole-archive digest, open the archive, extract inside `cd(args.path)`
through `safe_extract`, then reconcile. -/
def cmd_restore (hash : String → FData → String) (s : Sys)
    (manArg rootArg : List String) : RunOut :=
  match fsRead s.fs (resolveArg s.cwd manArg) with
  | some (.json m) =>
    match fsRead s.fs (resolveArg s.cwd m.archive_name) with
    | some archData =>
      if hash m.checksum_algorithm archData ≠ m.checksum then
        ⟨.exit EX_DATAERR, [],
          [archiveMismatchMsg m.checksum (hash m.checksum_algorithm archData)],
          s⟩
      else
        match archData with
        | .tar members =>
          let er := cdRun (resolveArg s.cwd rootArg) (safe_extract members) s
          match er.1 with
          | .error e => ⟨.exn e, [], [], er.2⟩
          | .ok _ => reconcile hash m er.2 rootArg
        | _ => ⟨.exn "tarfile.ReadError", [], [], s⟩
    | none => ⟨.exn "FileNotFoundError: archive", [], [], s⟩
  | some _ => ⟨.exn "json.JSONDecodeError", [], [], s⟩
  | none => ⟨.exn "FileNotFoundError: manifest", [], [], s⟩

/-- A parsed command line (`parse_args`, main.py lines 32-56). -/
inductive Cmd where
  | backup (target archName : List String) (alg : String)
  | restore (man root : List String)

/-- `main` (main.py lines 221-231): usage error without a subcommand,
dispatch otherwise. -/
def mainCmd (hash : String → FData → String) (s : Sys) (cmd : Option Cmd) :
    RunOut :=
  match cmd with
  | none =>
    ⟨.exit EX_USAGE, [],
      ["Please specify a command. Run with --help for more information."], s⟩
  | some (.backup target archName alg) => cmd_backup hash s target archName alg
  | some (.restore man root) => cmd_restore hash s man root

/-- Escape one character for a JSON string literal. -/
def escChar (c : Char) : String :=
  if c = '"' then "\\\""
  else if c = '\\' then "\\\\"
  else if c = '\n' then "\\n"
  else if c = '\t' then "\\t"
  else if c = '\r' then "\\r"
  else String.singleton c

/-- Escape a string for a JSON string literal. -/
def jsonEscape (s : String) : String :=
  s.data.foldl (fun acc c => acc ++ escChar c) ""

/-- A JSON string literal. -/
def jstr (s : String) : String := "\"" ++ jsonEscape s ++ "\""

/-- `n` spaces. -/
def pad (n : Nat) : String := String.mk (List.replicate n ' ')

/-- String key order for `json.dump(..., sort_keys=True)`. -/
def keyLe (a b : String × String) : Bool := strLe a.1 b.1

/-- Sort object entries by key (`sort_keys=True`). -/
def sortKV (l : List (String × String)) : List (String × String) :=
  sortBy keyLe l

/-- `sep.join(items)`: structural join of pre-rendered items. -/
def joinSep (sep : String) : List String → String
  | [] => ""
  | [x] => x
  | x :: y :: ys => x ++ sep ++ joinSep sep (y :: ys)

/-- Render a JSON object at indent column `ind` from pre-rendered values,
as `json.dump(..., indent=4)` lays it out. -/
def renderObjAt (ind : Nat) (kvs : List (String × String)) : String :=
  if kvs.isEmpty then "\x7b\x7d"
  else
    "\x7b\n" ++
      joinSep ",\n"
        (kvs.map (fun kv => pad (ind + 4) ++ jstr kv.1 ++ ": " ++ kv.2)) ++
      "\n" ++ pad ind ++ "\x7d"

/-- Render a JSON array at indent column `ind` from pre-rendered items,
as `json.dump(..., indent=4)` lays it out. -/
def renderArrAt (ind : Nat) (items : List String) : String :=
  if items.isEmpty then "[]"
  else
    "[\n" ++
      joinSep ",\n" (items.map (fun s => pad (ind + 4) ++ s)) ++
      "\n" ++ pad ind ++ "]"

/-- The key-value pairs of one `files` element, in the dict literal order
of main.py lines 105-112. -/
def filePairs (f : ManifestFile) : List (String × String) :=
  [("path", jstr (relStr f.path)), ("checksum", jstr f.checksum)]

/-- The key-value pairs of the manifest dict, in the dict literal order of
main.py lines 85-91, values pre-rendered. -/
def manifestPairs (m : Manifest) : List (String × String) :=
  [("archive_name", jstr (relStr m.archive_name)),
   ("checksum", jstr m.checksum),
   ("checksum_algorithm", jstr m.checksum_algorithm),
   ("creation_time", toString m.creation_time),
   ("files", renderArrAt 4 (m.files.map (fun f => renderObjAt 8 (sortKV (filePairs f)))))]

/-- `json.dump(manifest, f, sort_keys=True, indent=4)` (main.py line 121)
specialized to the manifest schema. -/
def serializeManifest (m : Manifest) : String :=
  renderObjAt 0 (sortKV (manifestPairs m))

/-- A concrete digest function standing in for `hashlib` in witnesses:
fully computable, distinguishing the contents that witnesses use. -/
def hashStub (alg : String) (d : FData) : String :=
  match d with
  | .bytes b => alg ++ "+b" ++ toString (b.foldl (fun a n => a * 1000 + n + 1) 0)
  | .tar ms => alg ++ "+t" ++ toString ms.length
  | .json _ => alg ++ "+j"

/-- Witness scenario: a tree `t` with two files below working directory
`/h`. -/
def sysRT : Sys :=
  ⟨[(["h", "t", "f1"], .bytes [1, 2]), (["h", "t", "f2"], .bytes [3])], ["h"], 42⟩

/-- An archive whose single member escapes the restore root into a sibling
directory whose name shares a string prefix with the root. -/
def archEsc : FData := .tar [(["..", "restore2", "evil"], .bytes [1])]

/-- Manifest for `archEsc` whose archive digest is valid. -/
def manEsc : Manifest := ⟨["a.tar.gz"], hashStub "sha1" archEsc, "sha1", 0, []⟩

/-- State holding `manEsc` and `archEsc` below working directory `/tmp`. -/
def sysEsc : Sys :=
  ⟨[(["tmp", "m"], .json manEsc), (["tmp", "a.tar.gz"], archEsc)], ["tmp"], 0⟩

/-- An archive whose single member climbs above the restore root and fails
the common-prefix check. -/
def archUp : FData := .tar [(["..", "..", "evil"], .bytes [1])]

/-- Manifest for `archUp` whose archive digest is valid. -/
def manUp : Manifest := ⟨["a.tar.gz"], hashStub "sha1" archUp, "sha1", 0, []⟩

/-- State holding `manUp` and `archUp` below working directory `/tmp`. -/
def sysUp : Sys :=
  ⟨[(["tmp", "m"], .json manUp), (["tmp", "a.tar.gz"], archUp)], ["tmp"], 0⟩

/-- An intact archive holding one file `f`. -/
def archBad : FData := .tar [(["f"], .bytes [7])]

/-- Manifest over `archBad` whose per-file checksum for `f` was tampered
with (the archive-level checksum is still valid). -/
def manBad : Manifest :=
  ⟨["a.tar.gz"], hashStub "sha1" archBad, "sha1", 0, [⟨["f"], "WRONG"⟩]⟩

/-- State holding `manBad`, `archBad`, and a file `f` beside them. -/
def sysBad : Sys :=
  ⟨[(["tmp", "m"], .json manBad), (["tmp", "a.tar.gz"], archBad),
    (["tmp", "f"], .bytes [7])], ["tmp"], 0⟩

/-- The restore run over `sysBad`. -/
def runBad : RunOut := cmd_restore hashStub sysBad ["m"] ["restore"]

/-- The manifest dict of the `sysBad` run. -/
def dictBad : List (FPath × String) := buildDict manBad.files

/-- The reconciliation pass of the `sysBad` run, on exactly the arguments
`cmd_restore` hands it. -/
def reconBad : Except String Recon :=
  reconLoop hashStub "sha1" dictBad ["tmp"] ["tmp", "restore"] runBad.sys.fs
    (walkFiles runBad.sys.fs ["tmp", "restore"]) ⟨[], []⟩

/-- A manifest whose recorded archive checksum does not match the archive
on disk. -/
def manMis : Manifest := ⟨["a.tar.gz"], "GOOD", "sha1", 0, []⟩

/-- State holding `manMis` and an archive file with other bytes. -/
def sysMis : Sys :=
  ⟨[(["tmp", "m"], .json manMis), (["tmp", "a.tar.gz"], .bytes [9])], ["tmp"], 0⟩

theorem cleanSeg_spec {s : String} (h : cleanSeg s = true) :
    ¬(s = "") ∧ ¬(s = ".") ∧ ¬(s = "..") := by
  simp only [cleanSeg, Bool.and_eq_true, decide_eq_true_eq, ne_eq] at h
  exact ⟨h.1.1.1, h.1.1.2, h.1.2⟩

theorem normStep_clean {acc : List String} {s : String} (h : cleanSeg s = true) :
    normStep acc s = acc ++ [s] := by
  obtain ⟨h1, h2, h3⟩ := cleanSeg_spec h
  simp [normStep, h1, h2, h3]

theorem foldl_normStep_clean {b : List String} (h : cleanPath b = true) :
    ∀ acc, List.foldl normStep acc b = acc ++ b := by
  induction b with
  | nil => intro acc; simp
  | cons s rest ih =>
    intro acc
    have hs : cleanSeg s = true := by
      simp only [cleanPath, List.all_cons, Bool.and_eq_true] at h
      exact h.1
    have hr : cleanPath rest = true := by
      simp only [cleanPath, List.all_cons, Bool.and_eq_true] at h
      exact h.2
    rw [List.foldl_cons, normStep_clean hs, ih hr]
    simp

theorem normPath_clean {p : List String} (h : cleanPath p = true) :
    normPath p = p := by
  simpa using foldl_normStep_clean h []

theorem resolveArg_clean {cwd a : List String}
    (h : cleanPath (cwd ++ a) = true) : resolveArg cwd a = cwd ++ a :=
  normPath_clean h

theorem cleanPath_append {a b : List String} :
    cleanPath (a ++ b) = (cleanPath a && cleanPath b) := List.all_append

theorem extTarget_clean {cwd name : List String}
    (hc : cleanPath cwd = true) (hn : cleanPath name = true) :
    extTarget cwd name = cwd ++ name := by
  have h1 : List.foldl normStep [] cwd = cwd := by
    simpa using foldl_normStep_clean hc []
  unfold extTarget normPath
  rw [show cwd ++ "." :: name = (cwd ++ ["."]) ++ name by simp,
    List.foldl_append, List.foldl_append, h1]
  have h2 : List.foldl normStep cwd ["."] = cwd := by simp [normStep]
  rw [h2, foldl_normStep_clean hn]

theorem fsRead_fsWrite_self (fs : List (FPath × FData)) (p : FPath) (d : FData) :
    fsRead (fsWrite fs p d) p = some d := by
  unfold fsRead fsWrite
  rw [List.find?_cons_of_pos _ (by simp)]
  rfl

theorem find?_filter_ne {q p : FPath} (h : q ≠ p)
    (fs : List (FPath × FData)) :
    List.find? (fun kv => kv.1 == q) (fs.filter (fun kv => !(kv.1 == p))) =
      List.find? (fun kv => kv.1 == q) fs := by
  induction fs with
  | nil => rfl
  | cons kv rest ih =>
    by_cases hp : kv.1 = p
    · rw [List.filter_cons_of_neg (by simp [hp]),
        List.find?_cons_of_neg _ (by simp [hp, Ne.symm h]), ih]
    · by_cases hq : kv.1 = q
      · rw [List.filter_cons_of_pos (by simp [hp]),
          List.find?_cons_of_pos _ (by simp [hq]), List.find?_cons_of_pos _ (by simp [hq])]
      · rw [List.filter_cons_of_pos (by simp [hp]),
          List.find?_cons_of_neg _ (by simp [hq]), List.find?_cons_of_neg _ (by simp [hq]), ih]

theorem fsRead_fsWrite_ne {q p : FPath} (h : q ≠ p)
    (fs : List (FPath × FData)) (d : FData) :
    fsRead (fsWrite fs p d) q = fsRead fs q := by
  unfold fsRead fsWrite
  rw [List.find?_cons_of_neg _ (by simp [Ne.symm h]), find?_filter_ne h fs]

theorem fsRead_isSome_of_mem {fs : List (FPath × FData)} {q : FPath}
    (h : q ∈ fs.map (fun kv => kv.1)) : (fsRead fs q).isSome = true := by
  induction fs with
  | nil => simp at h
  | cons kv rest ih =>
    by_cases hq : kv.1 = q
    · unfold fsRead
      rw [List.find?_cons_of_pos _ (by simp [hq])]
      rfl
    · have hm : q ∈ rest.map (fun kv => kv.1) := by
        simp only [List.map_cons, List.mem_cons] at h
        exact h.resolve_left (fun he => hq he.symm)
      unfold fsRead at ih ⊢
      rw [List.find?_cons_of_neg _ (by simp [hq])]
      exact ih hm

theorem mem_walkFiles {fs : List (FPath × FData)} {root q : FPath} :
    q ∈ walkFiles fs root ↔ q ∈ fs.map (fun kv => kv.1) ∧ underDir root q = true := by
  simp [walkFiles, List.mem_filter]

theorem underDir_iff {root p : FPath} :
    underDir root p = true ↔ root <+: p ∧ ¬(p = root) := by
  simp [underDir, List.isPrefixOf_iff_prefix]

theorem reconcile_sys (hash : String → FData → String) (m : Manifest)
    (s : Sys) (rootArg : List String) : (reconcile hash m s rootArg).sys = s := by
  simp only [reconcile]
  split
  · rfl
  · split <;> rfl

/-- **C8**: the scoped change-directory helper `cd` restores the original
working directory on every exit path (the body is arbitrary, including one
that fails or changes the directory again), and after `cmd_restore`
returns or throws the working directory equals what it was before. -/
theorem cd_restores_cwd :
    (∀ (α : Type) (target : FPath) (body : Sys → α × Sys) (s : Sys),
      (cdRun target body s).2.cwd = s.cwd) ∧
    (∀ (hash : String → FData → String) (s : Sys) (manArg rootArg : List String),
      (cmd_restore hash s manArg rootArg).sys.cwd = s.cwd) := by
  refine ⟨fun α target body s => rfl, fun hash s manArg rootArg => ?_⟩
  simp only [cmd_restore]
  split <;> try rfl
  split <;> try rfl
  split <;> try rfl
  split <;> try rfl
  split <;> try rfl
  rw [reconcile_sys]
  rfl

/-- **C4**: whenever the recomputed whole-archive digest (with the
algorithm named in the manifest) differs from the manifest checksum field,
`cmd_restore` reports both digests on stderr, returns the data-error exit
code, and leaves the filesystem completely untouched — nothing is ever
extracted or written. -/
theorem archive_mismatch_aborts
    (hash : String → FData → String) (s : Sys) (manArg rootArg : List String)
    (m : Manifest) (d : FData)
    (hman : fsRead s.fs (resolveArg s.cwd manArg) = some (.json m))
    (harch : fsRead s.fs (resolveArg s.cwd m.archive_name) = some d)
    (hne : hash m.checksum_algorithm d ≠ m.checksum) :
    cmd_restore hash s manArg rootArg =
      ⟨.exit EX_DATAERR, [],
        [archiveMismatchMsg m.checksum (hash m.checksum_algorithm d)], s⟩ := by
  simp only [cmd_restore, hman, harch]
  rw [if_pos hne]

theorem archive_mismatch_aborts_witness :
    cmd_restore hashStub sysMis ["m"] ["restore"] =
      ⟨.exit EX_DATAERR, [],
        [archiveMismatchMsg "GOOD" (hashStub "sha1" (.bytes [9]))], sysMis⟩ :=
  archive_mismatch_aborts hashStub sysMis ["m"] ["restore"] manMis (.bytes [9])
    rfl rfl (by decide)

/-- **C3** counterexample: restoring into root `/tmp/restore` an archive
whose member `../restore2/evil` resolves to `/tmp/restore2/evil` — outside
the restore root — is *not* aborted: the common-prefix check accepts the
sibling directory because `/tmp/restore` is a string prefix of
`/tmp/restore2/evil`, the file is written outside the root, and the run
even reports success. -/
theorem traversal_escape_counterexample :
    (cmd_restore hashStub sysEsc ["m"] ["restore"]).res = .exit EX_OK ∧
    fsRead (cmd_restore hashStub sysEsc ["m"] ["restore"]).sys.fs
      ["tmp", "restore2", "evil"] = some (.bytes [1]) := ⟨rfl, rfl⟩

/-- **C5** counterexample: an invocation of the program (a `restore` of an
archive holding a member that fails the traversal check) terminates with
an uncaught exception, not with a defined exit code. -/
theorem exit_code_crash_counterexample :
    (mainCmd hashStub sysUp (some (.restore ["m"] ["restore"]))).res =
      .exn "Attempted Path Traversal in Tar File" ∧
    ∀ c : Nat, (mainCmd hashStub sysUp (some (.restore ["m"] ["restore"]))).res ≠
      .exit c := by
  refine ⟨rfl, fun c h => ?_⟩
  rw [show (mainCmd hashStub sysUp (some (.restore ["m"] ["restore"]))).res =
    .exn "Attempted Path Traversal in Tar File" from rfl] at h
  exact RResult.noConfusion h

/-- **C2** (exhibits the code bug): in a fully successful extraction where
manifest path `f` is present on disk with a differing checksum, the
reconciliation places `f` in `bad_checksums` *and also* in
`missing_paths` (because line 192 only excludes `restored_paths`), so the
two sets are not disjoint and both are reported for the same path. -/
theorem reconcile_overlap_on_bad_checksum :
    reconBad = .ok ⟨[], [(["f"], "sha1+b8", "WRONG")]⟩ ∧
    missingOf dictBad [] = [["f"]] ∧
    runBad.err = ["Bad checksums: f: expected WRONG, got sha1+b8",
      "Missing paths: f", "Backup restoration failed"] ∧
    runBad.res = .exit EX_DATAERR := ⟨rfl, rfl, rfl, rfl⟩

/-- **C6**: during reconciliation `cmd_restore` recomputes each manifest
path checksum by opening the walk-relative path against the process
working directory (`fsRead fs (resolveArg cwd rel)` — the scoped directory
change was already undone), not joined under the restore root; for a
clean relative path and any restore root different from the working
directory the opened path `cwd ++ rel` is not the restored file
`root ++ rel`. -/
theorem recon_reads_cwd_relative
    (hash : String → FData → String) (alg : String)
    (dict : List (FPath × String)) (cwd root : FPath)
    (fs : List (FPath × FData)) (q : FPath) (qs : List FPath) (r : Recon)
    (exp : String)
    (hlook : List.lookup (q.drop root.length) dict = some exp)
    (d : FData)
    (hread : fsRead fs (resolveArg cwd (q.drop root.length)) = some d) :
    (hash alg d = exp →
      reconLoop hash alg dict cwd root fs (q :: qs) r =
        reconLoop hash alg dict cwd root fs qs
          ⟨r.restored ++ [q.drop root.length], r.bad⟩) ∧
    (hash alg d ≠ exp →
      reconLoop hash alg dict cwd root fs (q :: qs) r =
        reconLoop hash alg dict cwd root fs qs
          ⟨r.restored, r.bad ++ [(q.drop root.length, hash alg d, exp)]⟩) ∧
    (cleanPath (cwd ++ q.drop root.length) = true →
      resolveArg cwd (q.drop root.length) = cwd ++ q.drop root.length ∧
      (root ≠ cwd → cwd ++ q.drop root.length ≠ root ++ q.drop root.length)) := by
  refine ⟨fun heq => ?_, fun hne => ?_, fun hclean => ?_⟩
  · simp only [reconLoop, hlook, hread]
    rw [if_neg (by simp [heq])]
  · simp only [reconLoop, hlook, hread]
    rw [if_pos hne]
  · refine ⟨resolveArg_clean hclean, fun hroot happ => ?_⟩
    exact hroot (List.append_cancel_right happ).symm

theorem recon_reads_cwd_relative_witness :
    resolveArg ["a"] ["f"] = ["a", "f"] ∧
    (["b"] ≠ ["a"] → (["a"] : FPath) ++ ["f"] ≠ ["b"] ++ ["f"]) := by
  have h := recon_reads_cwd_relative hashStub "sha1" [(["f"], "X")] ["a"] ["b"]
    [(["a", "f"], FData.bytes [1])] ["b", "f"] [] ⟨[], []⟩ "X" rfl
    (FData.bytes [1]) rfl
  exact h.2.2 (by decide)

theorem backupScan_ok_under {hash : String → FData → String}
    {fs : List (FPath × FData)} {cwd : FPath} {alg : String} :
    ∀ {qs : List FPath} {es : List ManifestFile},
      backupScan hash fs cwd alg qs = .ok es →
      ∀ q ∈ qs, cwd.isPrefixOf q = true := by
  intro qs
  induction qs with
  | nil => intro es h q hq; simp at hq
  | cons q0 rest ih =>
    intro es h q hq
    rw [backupScan] at h
    by_cases hp : cwd.isPrefixOf q0 = true
    · rw [if_pos hp] at h
      rcases List.mem_cons.mp hq with rfl | hq2
      · exact hp
      · cases hr : fsRead fs q0 with
        | none => rw [hr] at h; exact absurd h (by simp)
        | some d =>
          rw [hr] at h
          cases hs : backupScan hash fs cwd alg rest with
          | error e => rw [hs] at h; exact absurd h (by simp [Except.map])
          | ok l => exact ih hs q hq2
    · rw [if_neg hp] at h
      exact absurd h (by simp)

theorem backupScan_ok_of {hash : String → FData → String}
    {fs : List (FPath × FData)} {cwd : FPath} {alg : String} :
    ∀ {qs : List FPath},
      (∀ q ∈ qs, cwd.isPrefixOf q = true ∧ (fsRead fs q).isSome = true) →
      backupScan hash fs cwd alg qs =
        .ok (qs.map (fun q => ⟨q.drop cwd.length, hash alg (fsReadD fs q)⟩)) := by
  intro qs
  induction qs with
  | nil => intro h; rfl
  | cons q0 rest ih =>
    intro h
    obtain ⟨hp, hs⟩ := h q0 (by simp)
    obtain ⟨d, hd⟩ := Option.isSome_iff_exists.mp hs
    rw [backupScan, if_pos hp, hd, ih (fun q hq => h q (by simp [hq]))]
    simp [Except.map, fsReadD, hd]

theorem cmd_backup_res_ok_iff (hash : String → FData → String) (s : Sys)
    (targetArg archArg : List String) (alg : String) :
    (cmd_backup hash s targetArg archArg alg).res = .exit EX_OK ↔
      ∀ q ∈ walkFiles s.fs (resolveArg s.cwd targetArg),
        s.cwd.isPrefixOf q = true := by
  constructor
  · intro h q hq
    cases hscan : backupScan hash s.fs s.cwd alg
        (walkFiles s.fs (resolveArg s.cwd targetArg)) with
    | error e =>
      simp only [cmd_backup, hscan] at h
      exact absurd h (by simp)
    | ok es => exact backupScan_ok_under hscan q hq
  · intro h
    simp only [cmd_backup]
    rw [backupScan_ok_of (fun q hq =>
      ⟨h q hq, fsRead_isSome_of_mem (mem_walkFiles.mp hq).1⟩)]

theorem cmd_backup_err_state (hash : String → FData → String) (s : Sys)
    (targetArg archArg : List String) (alg : String)
    (h : (cmd_backup hash s targetArg archArg alg).res ≠ .exit EX_OK) :
    (cmd_backup hash s targetArg archArg alg).sys = s ∧
    ∃ e, (cmd_backup hash s targetArg archArg alg).res = .exn e := by
  cases hscan : backupScan hash s.fs s.cwd alg
      (walkFiles s.fs (resolveArg s.cwd targetArg)) with
  | error e =>
    refine ⟨?_, e, ?_⟩ <;> simp [cmd_backup, hscan]
  | ok es =>
    exact absurd (by simp [cmd_backup, hscan] :
      (cmd_backup hash s targetArg archArg alg).res = .exit EX_OK) h

theorem normStep_long {acc : List String} {w : String} (h : 3 ≤ w.length) :
    normStep acc w = acc ++ [w] := by
  have h1 : ¬(w = "") := by rintro rfl; exact absurd h (by decide)
  have h2 : ¬(w = ".") := by rintro rfl; exact absurd h (by decide)
  have h3 : ¬(w = "..") := by rintro rfl; exact absurd h (by decide)
  simp [normStep, h1, h2, h3]

theorem resolveArg_snoc (cwd A : List String) (w : String) (h : 3 ≤ w.length) :
    resolveArg cwd (A ++ [w]) = normPath (cwd ++ A) ++ [w] := by
  unfold resolveArg normPath
  rw [show cwd ++ (A ++ [w]) = (cwd ++ A) ++ [w] by simp, List.foldl_append]
  simp [normStep_long h]

theorem withSuffix_eq : ∀ (p : List String) (suf : String),
    withSuffix p suf = p.dropLast ++ [p.getLastD "" ++ suf]
  | [], _ => rfl
  | [_], _ => rfl
  | x :: y :: xs, suf => by
    rw [withSuffix, withSuffix_eq (y :: xs) suf]
    rfl

theorem resolveArg_withSuffix_ne {u v : String} (cwd : FPath)
    (arch : List String) (h3u : 3 ≤ u.length) (h3v : 3 ≤ v.length)
    (hlen : u.length ≠ v.length) :
    resolveArg cwd (withSuffix arch u) ≠ resolveArg cwd (withSuffix arch v) := by
  rw [withSuffix_eq arch u, withSuffix_eq arch v,
    resolveArg_snoc _ _ _ (by rw [String.length_append]; omega),
    resolveArg_snoc _ _ _ (by rw [String.length_append]; omega)]
  intro he
  have h2 := List.append_cancel_left he
  have h3 : arch.getLastD "" ++ u = arch.getLastD "" ++ v := by
    simpa using h2
  have h4 := congrArg String.length h3
  simp only [String.length_append] at h4
  omega

theorem manifest_tarball_path_ne (cwd : FPath) (arch : List String) :
    resolveArg cwd (withSuffix arch ".manifest") ≠
      resolveArg cwd (withSuffix arch ".tar.gz") :=
  resolveArg_withSuffix_ne cwd arch (by decide) (by decide) (by decide)

theorem cmd_backup_success_state (hash : String → FData → String) (s : Sys)
    (targetArg archArg : List String) (alg : String)
    (hres : (cmd_backup hash s targetArg archArg alg).res = .exit EX_OK) :
    ∃ m members,
      fsRead (cmd_backup hash s targetArg archArg alg).sys.fs
        (resolveArg s.cwd (withSuffix archArg ".manifest")) = some (.json m) ∧
      fsRead (cmd_backup hash s targetArg archArg alg).sys.fs
        (resolveArg s.cwd (withSuffix archArg ".tar.gz")) = some (.tar members) ∧
      m.checksum = hash alg (.tar members) ∧
      m.archive_name = withSuffix archArg ".tar.gz" := by
  cases hscan : backupScan hash s.fs s.cwd alg
      (walkFiles s.fs (resolveArg s.cwd targetArg)) with
  | error e =>
    rw [show (cmd_backup hash s targetArg archArg alg).res = .exn e by
      simp [cmd_backup, hscan]] at hres
    exact absurd hres (by simp)
  | ok entries =>
    simp only [cmd_backup, hscan]
    refine ⟨_, entries.map (fun e => (e.path, fsReadD s.fs (resolveArg s.cwd e.path))),
      fsRead_fsWrite_self _ _ _, ?_, ?_, rfl⟩
    · rw [fsRead_fsWrite_ne (Ne.symm (manifest_tarball_path_ne s.cwd archArg)) _ _]
      exact fsRead_fsWrite_self _ _ _
    · simp [fsReadD, fsRead_fsWrite_self]

/-- **C9**: backup succeeds exactly when every discovered file lies below
the working directory (the `relative_to` computation), and otherwise the
run ends in an uncaught exception with nothing written — in particular no
archive file. -/
theorem backup_requires_cwd_containment (hash : String → FData → String)
    (s : Sys) (targetArg archArg : List String) (alg : String) :
    ((cmd_backup hash s targetArg archArg alg).res = .exit EX_OK ↔
      ∀ q ∈ walkFiles s.fs (resolveArg s.cwd targetArg),
        s.cwd.isPrefixOf q = true) ∧
    ((cmd_backup hash s targetArg archArg alg).res ≠ .exit EX_OK →
      (cmd_backup hash s targetArg archArg alg).sys = s ∧
      ∃ e, (cmd_backup hash s targetArg archArg alg).res = .exn e) :=
  ⟨cmd_backup_res_ok_iff hash s targetArg archArg alg,
    cmd_backup_err_state hash s targetArg archArg alg⟩

theorem backup_requires_cwd_containment_witness :
    (cmd_backup hashStub sysRT ["t"] ["arc"] "sha1").res = .exit EX_OK :=
  (backup_requires_cwd_containment hashStub sysRT ["t"] ["arc"] "sha1").1.mpr
    (by decide)

/-- **C7**: on every successful backup the persisted manifest's `checksum`
field equals the digest of the complete archive file as it exists on disk
after the run (computed after all members were added); the single manifest
write carries exactly this digest, so no partial or empty archive digest
is ever persisted. -/
theorem manifest_checksum_full_archive (hash : String → FData → String)
    (s : Sys) (targetArg archArg : List String) (alg : String)
    (hres : (cmd_backup hash s targetArg archArg alg).res = .exit EX_OK) :
    ∃ m members,
      fsRead (cmd_backup hash s targetArg archArg alg).sys.fs
        (resolveArg s.cwd (withSuffix archArg ".manifest")) = some (.json m) ∧
      fsRead (cmd_backup hash s targetArg archArg alg).sys.fs
        (resolveArg s.cwd (withSuffix archArg ".tar.gz")) = some (.tar members) ∧
      m.checksum = hash alg (.tar members) := by
  obtain ⟨m, members, h1, h2, h3, _⟩ :=
    cmd_backup_success_state hash s targetArg archArg alg hres
  exact ⟨m, members, h1, h2, h3⟩

theorem manifest_checksum_full_archive_witness :
    ∃ m members,
      fsRead (cmd_backup hashStub sysRT ["t"] ["arc"] "sha1").sys.fs
        (resolveArg ["h"] (withSuffix ["arc"] ".manifest")) = some (.json m) ∧
      fsRead (cmd_backup hashStub sysRT ["t"] ["arc"] "sha1").sys.fs
        (resolveArg ["h"] (withSuffix ["arc"] ".tar.gz")) = some (.tar members) ∧
      m.checksum = hashStub "sha1" (.tar members) :=
  manifest_checksum_full_archive hashStub sysRT ["t"] ["arc"] "sha1" rfl

/-- **C3** (amended): a member failing the common-prefix containment check
(the rendered absolute restore root is not a character prefix of the
member's resolved destination) aborts the entire extraction with the
constant-message traversal exception before any file is written,
regardless of the other members; a member that escapes the root while
keeping the root's rendered path as a string prefix (a sibling such as
`root2/`) is not caught, and the exception does not name the member. -/
theorem traversal_check_aborts (hash : String → FData → String) (s : Sys)
    (manArg rootArg : List String) (m : Manifest)
    (members : List (FPath × FData))
    (hman : fsRead s.fs (resolveArg s.cwd manArg) = some (.json m))
    (harch : fsRead s.fs (resolveArg s.cwd m.archive_name) = some (.tar members))
    (hsum : hash m.checksum_algorithm (.tar members) = m.checksum)
    (hbad : members.all (fun mb => is_within_directory
        (pathStr (normPath (resolveArg s.cwd rootArg ++ ["."])))
        (pathStr (extTarget (resolveArg s.cwd rootArg) mb.1))) = false) :
    cmd_restore hash s manArg rootArg =
      ⟨.exn "Attempted Path Traversal in Tar File", [], [], s⟩ := by
  simp only [cmd_restore, hman, harch]
  rw [if_neg (by simp [hsum])]
  simp only [cdRun, safe_extract]
  simp [hbad]

theorem traversal_check_aborts_witness :
    cmd_restore hashStub sysUp ["m"] ["restore"] =
      ⟨.exn "Attempted Path Traversal in Tar File", [], [], sysUp⟩ :=
  traversal_check_aborts hashStub sysUp ["m"] ["restore"] manUp
    [(["..", "..", "evil"], .bytes [1])] rfl rfl rfl (by decide)

theorem reconcile_res_cases (hash : String → FData → String) (m : Manifest)
    (s : Sys) (rootArg : List String) :
    (reconcile hash m s rootArg).res = .exit EX_OK ∨
    (reconcile hash m s rootArg).res = .exit EX_DATAERR ∨
    ∃ e, (reconcile hash m s rootArg).res = .exn e := by
  simp only [reconcile]
  split
  · exact .inr (.inr ⟨_, rfl⟩)
  · split
    · exact .inl rfl
    · exact .inr (.inl rfl)

theorem cmd_restore_res_cases (hash : String → FData → String) (s : Sys)
    (manArg rootArg : List String) :
    (cmd_restore hash s manArg rootArg).res = .exit EX_OK ∨
    (cmd_restore hash s manArg rootArg).res = .exit EX_DATAERR ∨
    ∃ e, (cmd_restore hash s manArg rootArg).res = .exn e := by
  simp only [cmd_restore]
  split
  · split
    · split
      · exact .inr (.inl rfl)
      · split
        · split
          · exact .inr (.inr ⟨_, rfl⟩)
          · exact reconcile_res_cases _ _ _ _
        · exact .inr (.inr ⟨_, rfl⟩)
    · exact .inr (.inr ⟨_, rfl⟩)
  · exact .inr (.inr ⟨_, rfl⟩)
  · exact .inr (.inr ⟨_, rfl⟩)

theorem cmd_backup_res_cases (hash : String → FData → String) (s : Sys)
    (targetArg archArg : List String) (alg : String) :
    (cmd_backup hash s targetArg archArg alg).res = .exit EX_OK ∨
    ∃ e, (cmd_backup hash s targetArg archArg alg).res = .exn e := by
  cases hscan : backupScan hash s.fs s.cwd alg
      (walkFiles s.fs (resolveArg s.cwd targetArg)) with
  | error e => exact .inr ⟨e, by simp [cmd_backup, hscan]⟩
  | ok es => exact .inl (by simp [cmd_backup, hscan])

/-- **C5** (amended): when an invocation terminates normally, its exit
code is one of the three defined codes — success, usage error (printed
with a usage message when no subcommand is given), or data error; however
not every invocation terminates normally: some (such as a restore whose
archive fails the traversal check) end in an uncaught exception instead of
a defined exit code. -/
theorem exit_codes_defined (hash : String → FData → String) (s : Sys)
    (cmd : Option Cmd) :
    (cmd = none → mainCmd hash s cmd =
      ⟨.exit EX_USAGE, [],
        ["Please specify a command. Run with --help for more information."],
        s⟩) ∧
    (∀ c : Nat, (mainCmd hash s cmd).res = .exit c →
      c = EX_OK ∨ c = EX_USAGE ∨ c = EX_DATAERR) := by
  constructor
  · rintro rfl; rfl
  · intro c hc
    match cmd with
    | none =>
      simp only [mainCmd] at hc
      exact .inr (.inl (RResult.exit.inj hc).symm)
    | some (.backup t a alg) =>
      rcases cmd_backup_res_cases hash s t a alg with h | ⟨e, h⟩
      · rw [show mainCmd hash s (some (.backup t a alg)) =
          cmd_backup hash s t a alg from rfl, h] at hc
        exact .inl (RResult.exit.inj hc).symm
      · rw [show mainCmd hash s (some (.backup t a alg)) =
          cmd_backup hash s t a alg from rfl, h] at hc
        exact absurd hc (by simp)
    | some (.restore man root) =>
      rcases cmd_restore_res_cases hash s man root with h | h | ⟨e, h⟩
      · rw [show mainCmd hash s (some (.restore man root)) =
          cmd_restore hash s man root from rfl, h] at hc
        exact .inl (RResult.exit.inj hc).symm
      · rw [show mainCmd hash s (some (.restore man root)) =
          cmd_restore hash s man root from rfl, h] at hc
        exact .inr (.inr (RResult.exit.inj hc).symm)
      · rw [show mainCmd hash s (some (.restore man root)) =
          cmd_restore hash s man root from rfl, h] at hc
        exact absurd hc (by simp)

theorem exit_codes_defined_witness :
    mainCmd hashStub sysRT none =
      ⟨.exit EX_USAGE, [],
        ["Please specify a command. Run with --help for more information."],
        sysRT⟩ :=
  (exit_codes_defined hashStub sysRT none).1 rfl


theorem serializeManifest_eq (m : Manifest) :
    serializeManifest m =
      "\x7b\n" ++ joinSep ",\n"
        [pad 4 ++ jstr "archive_name" ++ ": " ++ jstr (relStr m.archive_name),
         pad 4 ++ jstr "checksum" ++ ": " ++ jstr m.checksum,
         pad 4 ++ jstr "checksum_algorithm" ++ ": " ++ jstr m.checksum_algorithm,
         pad 4 ++ jstr "creation_time" ++ ": " ++ toString m.creation_time,
         pad 4 ++ jstr "files" ++ ": " ++ renderArrAt 4 (m.files.map (fun f =>
           "\x7b\n" ++ joinSep ",\n"
             [pad 12 ++ jstr "checksum" ++ ": " ++ jstr f.checksum,
              pad 12 ++ jstr "path" ++ ": " ++ jstr (relStr f.path)] ++
           "\n" ++ pad 8 ++ "\x7d"))] ++
      "\n" ++ pad 0 ++ "\x7d" := rfl

/-- **C10**: a successful backup writes the archive to
`<base>.tar.gz`, records exactly that name in the manifest's
`archive_name`, writes the manifest document to `<base>.manifest`, and the
manifest serializes (via `json.dump(..., sort_keys=True, indent=4)`) to an
object holding exactly the keys `archive_name`, `checksum`,
`checksum_algorithm`, `creation_time`, `files` in sorted order with
four-space indentation (nested file objects likewise key-sorted). -/
theorem manifest_serialization_shape (hash : String → FData → String)
    (s : Sys) (targetArg archArg : List String) (alg : String)
    (hres : (cmd_backup hash s targetArg archArg alg).res = .exit EX_OK) :
    ∃ m members,
      fsRead (cmd_backup hash s targetArg archArg alg).sys.fs
        (resolveArg s.cwd (withSuffix archArg ".manifest")) = some (.json m) ∧
      fsRead (cmd_backup hash s targetArg archArg alg).sys.fs
        (resolveArg s.cwd (withSuffix archArg ".tar.gz")) = some (.tar members) ∧
      m.archive_name = withSuffix archArg ".tar.gz" ∧
      serializeManifest m =
        "\x7b\n" ++ joinSep ",\n"
          [pad 4 ++ jstr "archive_name" ++ ": " ++ jstr (relStr m.archive_name),
           pad 4 ++ jstr "checksum" ++ ": " ++ jstr m.checksum,
           pad 4 ++ jstr "checksum_algorithm" ++ ": " ++ jstr m.checksum_algorithm,
           pad 4 ++ jstr "creation_time" ++ ": " ++ toString m.creation_time,
           pad 4 ++ jstr "files" ++ ": " ++ renderArrAt 4 (m.files.map (fun f =>
             "\x7b\n" ++ joinSep ",\n"
               [pad 12 ++ jstr "checksum" ++ ": " ++ jstr f.checksum,
                pad 12 ++ jstr "path" ++ ": " ++ jstr (relStr f.path)] ++
             "\n" ++ pad 8 ++ "\x7d"))] ++
        "\n" ++ pad 0 ++ "\x7d" := by
  obtain ⟨m, members, h1, h2, _, h4⟩ :=
    cmd_backup_success_state hash s targetArg archArg alg hres
  exact ⟨m, members, h1, h2, h4, serializeManifest_eq m⟩

theorem manifest_serialization_shape_witness :
    ∃ m members,
      fsRead (cmd_backup hashStub sysRT ["t"] ["arc"] "sha1").sys.fs
        (resolveArg ["h"] (withSuffix ["arc"] ".manifest")) = some (.json m) ∧
      fsRead (cmd_backup hashStub sysRT ["t"] ["arc"] "sha1").sys.fs
        (resolveArg ["h"] (withSuffix ["arc"] ".tar.gz")) = some (.tar members) ∧
      m.archive_name = withSuffix ["arc"] ".tar.gz" ∧
      serializeManifest m =
        "\x7b\n" ++ joinSep ",\n"
          [pad 4 ++ jstr "archive_name" ++ ": " ++ jstr (relStr m.archive_name),
           pad 4 ++ jstr "checksum" ++ ": " ++ jstr m.checksum,
           pad 4 ++ jstr "checksum_algorithm" ++ ": " ++ jstr m.checksum_algorithm,
           pad 4 ++ jstr "creation_time" ++ ": " ++ toString m.creation_time,
           pad 4 ++ jstr "files" ++ ": " ++ renderArrAt 4 (m.files.map (fun f =>
             "\x7b\n" ++ joinSep ",\n"
               [pad 12 ++ jstr "checksum" ++ ": " ++ jstr f.checksum,
                pad 12 ++ jstr "path" ++ ": " ++ jstr (relStr f.path)] ++
             "\n" ++ pad 8 ++ "\x7d"))] ++
        "\n" ++ pad 0 ++ "\x7d" :=
  manifest_serialization_shape hashStub sysRT ["t"] ["arc"] "sha1" rfl

theorem cleanPath_iff {p : FPath} :
    cleanPath p = true ↔ ∀ s ∈ p, cleanSeg s = true := by
  simp [cleanPath, List.all_eq_true]

theorem cleanPath_drop {p : FPath} (h : cleanPath p = true) (n : Nat) :
    cleanPath (p.drop n) = true :=
  cleanPath_iff.mpr (fun s hs => cleanPath_iff.mp h s (List.mem_of_mem_drop hs))

theorem prefix_drop_append {a q : FPath} (h : a <+: q) :
    a ++ q.drop a.length = q := by
  obtain ⟨t, rfl⟩ := h
  rw [List.drop_left]

theorem normPath_append_dot {p : FPath} (h : cleanPath p = true) :
    normPath (p ++ ["."]) = p := by
  unfold normPath
  rw [List.foldl_append]
  have h1 : List.foldl normStep [] p = p := by
    simpa using foldl_normStep_clean h []
  rw [h1]
  simp [normStep]

theorem foldl_slash_grows (b : List String) :
    ∀ start : String,
      start.data <+: (b.foldl (fun acc s => acc ++ "/" ++ s) start).data := by
  induction b with
  | nil => intro start; simp
  | cons s rest ih =>
    intro start
    rw [List.foldl_cons]
    refine List.IsPrefix.trans ?_ (ih (start ++ "/" ++ s))
    rw [show start ++ "/" ++ s = start ++ ("/" ++ s) by rw [String.append_assoc]]
    rw [String.data_append]
    exact List.prefix_append _ _

theorem pathStr_data_grows (a b : FPath) :
    (pathStr a).data <+: (pathStr (a ++ b)).data := by
  unfold pathStr
  rw [List.foldl_append]
  exact foldl_slash_grows b _

theorem commonprefixChars_eq_left : ∀ {a b : List Char}, a <+: b →
    commonprefixChars a b = a
  | [], b, _ => by cases b <;> rfl
  | x :: xs, b, h => by
    obtain ⟨t, rfl⟩ := h
    rw [List.cons_append, commonprefixChars, if_pos rfl,
      commonprefixChars_eq_left ⟨t, rfl⟩]

theorem is_within_append (a b : FPath) :
    is_within_directory (pathStr a) (pathStr (a ++ b)) = true := by
  unfold is_within_directory
  rw [commonprefixChars_eq_left (pathStr_data_grows a b)]
  simp

theorem mem_keys_fsWrite {p t : FPath} {fs : List (FPath × FData)} {d : FData} :
    p ∈ (fsWrite fs t d).map (fun kv => kv.1) ↔
      p = t ∨ p ∈ fs.map (fun kv => kv.1) := by
  unfold fsWrite
  simp only [List.map_cons, List.mem_cons]
  constructor
  · rintro (rfl | h)
    · exact .inl rfl
    · obtain ⟨kv, hkv, rfl⟩ := List.mem_map.mp h
      exact .inr (List.mem_map.mpr ⟨kv, (List.mem_filter.mp hkv).1, rfl⟩)
  · rintro (rfl | h)
    · exact .inl rfl
    · by_cases hp : p = t
      · exact .inl hp
      · obtain ⟨kv, hkv, rfl⟩ := List.mem_map.mp h
        refine .inr (List.mem_map.mpr ⟨kv, List.mem_filter.mpr ⟨hkv, ?_⟩, rfl⟩)
        simpa using hp

theorem lookup_mem {k : FPath} {v : String} :
    ∀ {l : List (FPath × String)}, List.lookup k l = some v → (k, v) ∈ l := by
  intro l
  induction l with
  | nil => intro h; simp at h
  | cons kv rest ih =>
    intro h
    rcases kv with ⟨k', v'⟩
    by_cases he : k = k'
    · subst he
      simp only [List.lookup, beq_self_eq_true] at h
      simp [← Option.some_inj.mp h]
    · simp only [List.lookup, beq_eq_false_iff_ne, he, ne_eq,
        not_false_eq_true, beq_iff_eq, if_neg] at h
      rw [show (k == k') = false by simpa using he] at h
      exact List.mem_cons.mpr (.inr (ih h))

theorem lookup_isSome_of_mem_keys {k : FPath} :
    ∀ {l : List (FPath × String)}, k ∈ l.map (fun kv => kv.1) →
      ∃ v, List.lookup k l = some v := by
  intro l
  induction l with
  | nil => simp
  | cons kv rest ih =>
    intro h
    rcases kv with ⟨k', v'⟩
    by_cases he : k = k'
    · subst he
      exact ⟨v', by simp [List.lookup]⟩
    · simp only [List.map_cons, List.mem_cons] at h
      rcases h with h | h
      · exact absurd h he
      · obtain ⟨v, hv⟩ := ih h
        refine ⟨v, ?_⟩
        rw [List.lookup, show (k == k') = false by simpa using he]
        exact hv

theorem keys_dictInsert {d : List (FPath × String)} {k : FPath} {v : String} :
    (dictInsert d k v).map (fun kv => kv.1) =
      if d.any (fun kv => kv.1 == k) then d.map (fun kv => kv.1)
      else d.map (fun kv => kv.1) ++ [k] := by
  unfold dictInsert
  by_cases hany : d.any (fun kv => kv.1 == k) = true
  · rw [if_pos hany, if_pos hany, List.map_map]
    refine List.map_congr_left (fun kv _ => ?_)
    by_cases h : kv.1 = k <;> simp [h]
  · rw [if_neg hany, if_neg hany, List.map_append]
    rfl

theorem mem_keys_dictInsert {k' k : FPath} {v : String}
    {d : List (FPath × String)} :
    k' ∈ (dictInsert d k v).map (fun kv => kv.1) ↔
      k' ∈ d.map (fun kv => kv.1) ∨ k' = k := by
  rw [keys_dictInsert]
  by_cases hany : d.any (fun kv => kv.1 == k) = true
  · rw [if_pos hany]
    constructor
    · exact .inl
    · rintro (h | rfl)
      · exact h
      · obtain ⟨kv, hkv, hk⟩ := List.any_eq_true.mp hany
        exact List.mem_map.mpr ⟨kv, hkv, by simpa using hk⟩
  · rw [if_neg hany]
    simp [List.mem_append]

theorem entries_dictInsert {g : FPath → String} {d : List (FPath × String)}
    {k : FPath} {v : String} (hd : ∀ kv ∈ d, kv.2 = g kv.1) (hv : v = g k) :
    ∀ kv ∈ dictInsert d k v, kv.2 = g kv.1 := by
  unfold dictInsert
  split
  · intro kv hkv
    obtain ⟨kv0, hkv0, hk⟩ := List.mem_map.mp hkv
    by_cases h : kv0.1 = k
    · rw [if_pos (by simpa using h)] at hk
      rw [← hk]
      exact hv
    · rw [if_neg (by simpa using h)] at hk
      rw [← hk]
      exact hd kv0 hkv0
  · intro kv hkv
    rcases List.mem_append.mp hkv with h | h
    · exact hd kv h
    · rw [List.mem_singleton.mp h]
      exact hv

theorem buildDict_entries_aux {g : FPath → String} :
    ∀ {files : List ManifestFile} {d : List (FPath × String)},
      (∀ kv ∈ d, kv.2 = g kv.1) →
      (∀ f ∈ files, f.checksum = g f.path) →
      ∀ kv ∈ files.foldl (fun d f => dictInsert d f.path f.checksum) d,
        kv.2 = g kv.1 := by
  intro files
  induction files with
  | nil => intro d hd _ kv hkv; exact hd kv hkv
  | cons f rest ih =>
    intro d hd hf kv hkv
    exact ih (entries_dictInsert hd (hf f (by simp)))
      (fun f' h' => hf f' (by simp [h'])) kv hkv

theorem buildDict_entries (g : FPath → String) {files : List ManifestFile}
    (hf : ∀ f ∈ files, f.checksum = g f.path) :
    ∀ kv ∈ buildDict files, kv.2 = g kv.1 :=
  buildDict_entries_aux (by simp) hf

theorem mem_keys_buildDict_aux {k : FPath} :
    ∀ {files : List ManifestFile} {d : List (FPath × String)},
      (k ∈ (files.foldl (fun d f => dictInsert d f.path f.checksum) d).map
          (fun kv => kv.1) ↔
        k ∈ d.map (fun kv => kv.1) ∨ k ∈ files.map (fun f => f.path)) := by
  intro files
  induction files with
  | nil => intro d; simp
  | cons f rest ih =>
    intro d
    rw [List.foldl_cons]
    rw [ih]
    rw [mem_keys_dictInsert]
    simp only [List.map_cons, List.mem_cons]
    constructor
    · rintro ((h | rfl) | h)
      · exact .inl h
      · exact .inr (.inl rfl)
      · exact .inr (.inr h)
    · rintro (h | rfl | h)
      · exact .inl (.inl h)
      · exact .inl (.inr rfl)
      · exact .inr h

theorem mem_keys_buildDict {k : FPath} {files : List ManifestFile} :
    k ∈ (buildDict files).map (fun kv => kv.1) ↔
      k ∈ files.map (fun f => f.path) := by
  rw [buildDict, mem_keys_buildDict_aux]
  simp

theorem fsRead_foldl_write_notin (tgt : FPath × FData → FPath) {p : FPath} :
    ∀ {members init : List (FPath × FData)},
      (∀ mb ∈ members, tgt mb ≠ p) →
      fsRead (members.foldl (fun fs mb => fsWrite fs (tgt mb) mb.2) init) p =
        fsRead init p := by
  intro members
  induction members with
  | nil => intro init _; rfl
  | cons mb rest ih =>
    intro init h
    rw [List.foldl_cons, ih (fun mb' h' => h mb' (by simp [h'])),
      fsRead_fsWrite_ne (fun he => h mb (by simp) he.symm)]

theorem fsRead_foldl_write_last (tgt : FPath × FData → FPath) {p : FPath}
    {c : FData} :
    ∀ {members init : List (FPath × FData)},
      (∃ mb ∈ members, tgt mb = p) →
      (∀ mb ∈ members, tgt mb = p → mb.2 = c) →
      fsRead (members.foldl (fun fs mb => fsWrite fs (tgt mb) mb.2) init) p =
        some c := by
  intro members
  induction members with
  | nil => intro init hex _; simp at hex
  | cons mb rest ih =>
    intro init hex hall
    rw [List.foldl_cons]
    by_cases hrest : ∃ mb' ∈ rest, tgt mb' = p
    · exact ih hrest (fun mb' h' => hall mb' (by simp [h']))
    · obtain ⟨mb', hm', ht'⟩ := hex
      rcases List.mem_cons.mp hm' with rfl | hm2
      · rw [fsRead_foldl_write_notin tgt
          (fun mb2 h2 he2 => hrest ⟨mb2, h2, he2⟩), ht',
          fsRead_fsWrite_self, hall mb' (by simp) ht']
      · exact absurd ⟨mb', hm2, ht'⟩ hrest

theorem mem_keys_foldl_write (tgt : FPath × FData → FPath) {p : FPath} :
    ∀ {members init : List (FPath × FData)},
      (p ∈ (members.foldl (fun fs mb => fsWrite fs (tgt mb) mb.2) init).map
          (fun kv => kv.1) ↔
        (∃ mb ∈ members, tgt mb = p) ∨ p ∈ init.map (fun kv => kv.1)) := by
  intro members
  induction members with
  | nil => intro init; simp
  | cons mb rest ih =>
    intro init
    rw [List.foldl_cons, ih, mem_keys_fsWrite]
    constructor
    · rintro (h | rfl | h)
      · obtain ⟨mb', h1, h2⟩ := h
        exact .inl ⟨mb', by simp [h1], h2⟩
      · exact .inl ⟨mb, by simp, rfl⟩
      · exact .inr h
    · rintro (⟨mb', h1, h2⟩ | h)
      · rcases List.mem_cons.mp h1 with rfl | h3
        · exact .inr (.inl h2.symm)
        · exact .inl ⟨mb', h3, h2⟩
      · exact .inr (.inr h)

theorem reconLoop_all_restored (hash : String → FData → String) (alg : String)
    (dict : List (FPath × String)) (cwd root : FPath)
    (fs : List (FPath × FData)) :
    ∀ {l : List FPath} {r : Recon},
      (∀ q ∈ l, ∃ exp d,
        List.lookup (q.drop root.length) dict = some exp ∧
        fsRead fs (resolveArg cwd (q.drop root.length)) = some d ∧
        hash alg d = exp) →
      reconLoop hash alg dict cwd root fs l r =
        .ok ⟨r.restored ++ l.map (fun q => q.drop root.length), r.bad⟩ := by
  intro l
  induction l with
  | nil => intro r _; simp [reconLoop]
  | cons q rest ih =>
    intro r h
    obtain ⟨exp, d, hl, hr, he⟩ := h q (by simp)
    simp only [reconLoop, hl, hr]
    rw [if_neg (by simp [he])]
    rw [ih (fun q' h' => h q' (by simp [h']))]
    simp

theorem fsRead_some_mem_keys {fs : List (FPath × FData)} {p : FPath}
    {d : FData} (h : fsRead fs p = some d) :
    p ∈ fs.map (fun kv => kv.1) := by
  unfold fsRead at h
  cases hf : fs.find? (fun kv => kv.1 == p) with
  | none => rw [hf] at h; simp at h
  | some kv =>
    rw [hf] at h
    have hm := List.mem_of_find?_eq_some hf
    have hk : kv.1 = p := by
      have := List.find?_some hf
      simpa using this
    exact List.mem_map.mpr ⟨kv, hm, hk⟩

theorem cmd_restore_success (hash : String → FData → String) (s : Sys)
    (manArg rootArg : List String) (M : Manifest)
    (members : List (FPath × FData))
    (hman : fsRead s.fs (resolveArg s.cwd manArg) = some (.json M))
    (harch : fsRead s.fs (resolveArg s.cwd M.archive_name) = some (.tar members))
    (hsum : hash M.checksum_algorithm (.tar members) = M.checksum)
    (hcwd : cleanPath s.cwd = true) (hrootc : cleanPath rootArg = true)
    (hmemc : ∀ mb ∈ members, cleanPath mb.1 = true ∧ mb.1 ≠ [])
    (hempty : ∀ p ∈ s.fs.map (fun kv => kv.1), ¬(s.cwd ++ rootArg) <+: p)
    (hnames : ∀ mb ∈ members, mb.1 ∈ M.files.map (fun f => f.path))
    (hkeys : ∀ f ∈ M.files, f.path ∈ members.map (fun mb => mb.1))
    (hcontent : ∀ mb ∈ members, fsRead s.fs (s.cwd ++ mb.1) = some mb.2)
    (hfiles : ∀ f ∈ M.files,
      f.checksum = hash M.checksum_algorithm (fsReadD s.fs (s.cwd ++ f.path))) :
    cmd_restore hash s manArg rootArg =
      ⟨.exit EX_OK, ["Backup restored successfully"], [],
        ⟨members.foldl
          (fun fs mb => fsWrite fs (extTarget (resolveArg s.cwd rootArg) mb.1) mb.2)
          s.fs, s.cwd, s.clock⟩⟩ := by
  have hrootclean : cleanPath (s.cwd ++ rootArg) = true := by
    rw [cleanPath_append, hcwd, hrootc]; rfl
  have hroot : resolveArg s.cwd rootArg = s.cwd ++ rootArg :=
    resolveArg_clean hrootclean
  -- the traversal check accepts every member
  have hcheck : members.all (fun mb => is_within_directory
      (pathStr (normPath (resolveArg s.cwd rootArg ++ ["."])))
      (pathStr (extTarget (resolveArg s.cwd rootArg) mb.1))) = true := by
    rw [List.all_eq_true]
    intro mb hmb
    rw [hroot, normPath_append_dot hrootclean,
      extTarget_clean hrootclean (hmemc mb hmb).1]
    exact is_within_append _ _
  -- the extraction image
  have htgt : ∀ mb ∈ members,
      extTarget (resolveArg s.cwd rootArg) mb.1 = (s.cwd ++ rootArg) ++ mb.1 := by
    intro mb hmb
    rw [hroot, extTarget_clean hrootclean (hmemc mb hmb).1]
  -- walked files of the extracted tree are exactly the member images
  have hwalked2 : ∀ q ∈ walkFiles
      (members.foldl
        (fun fs mb => fsWrite fs (extTarget (resolveArg s.cwd rootArg) mb.1) mb.2)
        s.fs) (resolveArg s.cwd rootArg),
      ∃ mb ∈ members, q = (s.cwd ++ rootArg) ++ mb.1 := by
    intro q hq
    obtain ⟨hqk, hqu⟩ := mem_walkFiles.mp hq
    rcases (mem_keys_foldl_write _).mp hqk with ⟨mb, hmb, ht⟩ | hqs
    · exact ⟨mb, hmb, by rw [← ht, htgt mb hmb]⟩
    · obtain ⟨hpre, _⟩ := underDir_iff.mp hqu
      rw [hroot] at hpre
      exact absurd hpre (hempty q hqs)
  -- reads of originals beside the working directory are untouched
  have hout : ∀ rel d0, fsRead s.fs (s.cwd ++ rel) = some d0 →
      fsRead (members.foldl
        (fun fs mb => fsWrite fs (extTarget (resolveArg s.cwd rootArg) mb.1) mb.2)
        s.fs) (s.cwd ++ rel) = some d0 := by
    intro rel d0 hd
    rw [fsRead_foldl_write_notin
      (fun mb => extTarget (resolveArg s.cwd rootArg) mb.1) ?_]
    · exact hd
    · intro mb hmb he
      have he2 : extTarget (resolveArg s.cwd rootArg) mb.1 = s.cwd ++ rel := he
      rw [htgt mb hmb] at he2
      exact hempty _ (fsRead_some_mem_keys hd) (he2 ▸ List.prefix_append _ _)
  set fs2 := members.foldl
    (fun fs mb => fsWrite fs (extTarget (resolveArg s.cwd rootArg) mb.1) mb.2)
    s.fs with hfs2
  have hcond : ∀ q ∈ walkFiles fs2 (resolveArg s.cwd rootArg), ∃ exp d,
      List.lookup (q.drop (resolveArg s.cwd rootArg).length)
        (buildDict M.files) = some exp ∧
      fsRead fs2 (resolveArg s.cwd
        (q.drop (resolveArg s.cwd rootArg).length)) = some d ∧
      hash M.checksum_algorithm d = exp := by
    intro q hq
    obtain ⟨mb, hmb, rfl⟩ := hwalked2 q hq
    have hdrop : ((s.cwd ++ rootArg) ++ mb.1).drop
        (resolveArg s.cwd rootArg).length = mb.1 := by
      rw [hroot]
      exact List.drop_left _ _
    obtain ⟨exp, hexp⟩ :=
      lookup_isSome_of_mem_keys (mem_keys_buildDict.mpr (hnames mb hmb))
    refine ⟨exp, mb.2, ?_, ?_, ?_⟩
    · rw [hdrop]
      exact hexp
    · rw [hdrop, resolveArg_clean
        (by rw [cleanPath_append, hcwd, (hmemc mb hmb).1]; rfl)]
      exact hout mb.1 mb.2 (hcontent mb hmb)
    · have hev := buildDict_entries
        (g := fun r => hash M.checksum_algorithm (fsReadD s.fs (s.cwd ++ r)))
        hfiles _ (lookup_mem hexp)
      simp only at hev
      rw [hev]
      simp only [fsReadD, hcontent mb hmb, Option.getD_some]
  have hrecon := @reconLoop_all_restored hash M.checksum_algorithm
    (buildDict M.files) s.cwd (resolveArg s.cwd rootArg) fs2
    (walkFiles fs2 (resolveArg s.cwd rootArg)) ⟨[], []⟩ hcond
  have hrestored : ∀ k ∈ (buildDict M.files).map (fun kv => kv.1),
      k ∈ (walkFiles fs2 (resolveArg s.cwd rootArg)).map
        (fun q => q.drop (resolveArg s.cwd rootArg).length) := by
    intro k hk
    obtain ⟨f, hf, rfl⟩ := List.mem_map.mp (mem_keys_buildDict.mp hk)
    obtain ⟨mb, hmb, hmbk⟩ := List.mem_map.mp (hkeys f hf)
    refine List.mem_map.mpr ⟨(s.cwd ++ rootArg) ++ f.path, ?_, ?_⟩
    · apply mem_walkFiles.mpr
      constructor
      · apply (mem_keys_foldl_write _).mpr
        exact .inl ⟨mb, hmb, by rw [htgt mb hmb, hmbk]⟩
      · rw [hroot]
        refine underDir_iff.mpr ⟨List.prefix_append _ _, ?_⟩
        intro heq
        have hnil : f.path = [] :=
          List.append_cancel_left (heq.trans (List.append_nil _).symm)
        exact (hmbk ▸ (hmemc mb hmb).2) hnil
    · rw [hroot]
      exact List.drop_left _ _
  have hmiss : missingOf (buildDict M.files)
      ((walkFiles fs2 (resolveArg s.cwd rootArg)).map
        (fun q => q.drop (resolveArg s.cwd rootArg).length)) = [] := by
    unfold missingOf
    rw [List.filter_eq_nil_iff]
    intro p hp
    have hmem := hrestored p hp
    simpa using hmem
  simp only [cmd_restore, hman, harch]
  rw [if_neg (by simp [hsum])]
  dsimp only [cdRun, safe_extract]
  rw [if_pos hcheck]
  simp only [reconcile]
  rw [hrecon]
  simp [hmiss]

/-- **C1**: round trip.  Backing up a clean directory tree below the
working directory and restoring the produced manifest into an empty
directory reproduces byte-identical file contents at the same relative
paths, prints the success message on stdout (with an empty stderr), and
returns the success exit code. -/
theorem backup_restore_roundtrip (hash : String → FData → String) (s0 : Sys)
    (targetArg archArg rootArg : List String) (alg : String) (rel : FPath)
    (hfs : cleanFs s0.fs = true)
    (hcwd : cleanPath s0.cwd = true)
    (htarget : cleanPath targetArg = true)
    (hrootc : cleanPath rootArg = true)
    (hempty : (cmd_backup hash s0 targetArg archArg alg).sys.fs.all
      (fun kv => !((s0.cwd ++ rootArg).isPrefixOf kv.1)) = true)
    (harchout : underDir (resolveArg s0.cwd targetArg)
      (resolveArg s0.cwd (withSuffix archArg ".tar.gz")) = false)
    (hmanout : underDir (resolveArg s0.cwd targetArg)
      (resolveArg s0.cwd (withSuffix archArg ".manifest")) = false)
    (hrel : (s0.cwd ++ rel) ∈ walkFiles s0.fs (resolveArg s0.cwd targetArg)) :
    (cmd_restore hash (cmd_backup hash s0 targetArg archArg alg).sys
        (withSuffix archArg ".manifest") rootArg).res = .exit EX_OK ∧
    (cmd_restore hash (cmd_backup hash s0 targetArg archArg alg).sys
        (withSuffix archArg ".manifest") rootArg).out =
      ["Backup restored successfully"] ∧
    (cmd_restore hash (cmd_backup hash s0 targetArg archArg alg).sys
        (withSuffix archArg ".manifest") rootArg).err = [] ∧
    fsRead (cmd_restore hash (cmd_backup hash s0 targetArg archArg alg).sys
        (withSuffix archArg ".manifest") rootArg).sys.fs
      ((s0.cwd ++ rootArg) ++ rel) = fsRead s0.fs (s0.cwd ++ rel) ∧
    (fsRead s0.fs (s0.cwd ++ rel)).isSome = true := by
  -- facts about every file discovered by the backup walk
  have htargetAbs : resolveArg s0.cwd targetArg = s0.cwd ++ targetArg :=
    resolveArg_clean (by rw [cleanPath_append, hcwd, htarget]; rfl)
  have hqclean : ∀ q ∈ walkFiles s0.fs (resolveArg s0.cwd targetArg),
      cleanPath q = true := by
    intro q hq
    obtain ⟨kv, hkv, rfl⟩ := List.mem_map.mp (mem_walkFiles.mp hq).1
    exact cleanPath_iff.mpr (fun seg hseg =>
      cleanPath_iff.mp (List.all_eq_true.mp hfs kv hkv) seg hseg)
  have hqpre : ∀ q ∈ walkFiles s0.fs (resolveArg s0.cwd targetArg),
      s0.cwd.isPrefixOf q = true := by
    intro q hq
    have hu := (mem_walkFiles.mp hq).2
    obtain ⟨hpre, _⟩ := underDir_iff.mp hu
    rw [htargetAbs] at hpre
    exact List.isPrefixOf_iff_prefix.mpr
      (List.IsPrefix.trans (List.prefix_append _ _) hpre)
  have hqsome : ∀ q ∈ walkFiles s0.fs (resolveArg s0.cwd targetArg),
      (fsRead s0.fs q).isSome = true :=
    fun q hq => fsRead_isSome_of_mem (mem_walkFiles.mp hq).1
  have hqlong : ∀ q ∈ walkFiles s0.fs (resolveArg s0.cwd targetArg),
      q.drop s0.cwd.length ≠ [] := by
    intro q hq
    have hu := (mem_walkFiles.mp hq).2
    obtain ⟨hpre, hne⟩ := underDir_iff.mp hu
    have hlt : (resolveArg s0.cwd targetArg).length < q.length := by
      rcases Nat.lt_or_ge (resolveArg s0.cwd targetArg).length q.length with h | h
      · exact h
      · exact absurd (List.IsPrefix.eq_of_length hpre
          (Nat.le_antisymm (List.IsPrefix.length_le hpre) h)).symm hne
    have hcl : s0.cwd.length ≤ (resolveArg s0.cwd targetArg).length := by
      rw [htargetAbs, List.length_append]
      omega
    intro hnil
    have := congrArg List.length hnil
    rw [List.length_drop] at this
    simp at this
    omega
  have hqne : ∀ q ∈ walkFiles s0.fs (resolveArg s0.cwd targetArg),
      q ≠ resolveArg s0.cwd (withSuffix archArg ".manifest") ∧
      q ≠ resolveArg s0.cwd (withSuffix archArg ".tar.gz") := by
    intro q hq
    constructor
    · intro he
      rw [he] at hq
      rw [(mem_walkFiles.mp hq).2] at hmanout
      exact Bool.true_eq_false.mp hmanout
    · intro he
      rw [he] at hq
      rw [(mem_walkFiles.mp hq).2] at harchout
      exact Bool.true_eq_false.mp harchout
  -- the backup scan succeeds and yields the canonical entry list
  have hscan : backupScan hash s0.fs s0.cwd alg
      (walkFiles s0.fs (resolveArg s0.cwd targetArg)) =
      .ok ((walkFiles s0.fs (resolveArg s0.cwd targetArg)).map
        (fun q => ⟨q.drop s0.cwd.length, hash alg (fsReadD s0.fs q)⟩)) :=
    backupScan_ok_of (fun q hq => ⟨hqpre q hq, hqsome q hq⟩)
  have hs1 : (cmd_backup hash s0 targetArg archArg alg).sys =
      ⟨fsWrite
        (fsWrite s0.fs (resolveArg s0.cwd (withSuffix archArg ".tar.gz"))
          (.tar (((walkFiles s0.fs (resolveArg s0.cwd targetArg)).map
              (fun q => (⟨q.drop s0.cwd.length, hash alg (fsReadD s0.fs q)⟩ :
                ManifestFile))).map
            (fun e => (e.path, fsReadD s0.fs (resolveArg s0.cwd e.path))))))
        (resolveArg s0.cwd (withSuffix archArg ".manifest"))
        (.json ⟨withSuffix archArg ".tar.gz",
          hash alg (fsReadD
            (fsWrite s0.fs (resolveArg s0.cwd (withSuffix archArg ".tar.gz"))
              (.tar (((walkFiles s0.fs (resolveArg s0.cwd targetArg)).map
                  (fun q => (⟨q.drop s0.cwd.length, hash alg (fsReadD s0.fs q)⟩ :
                    ManifestFile))).map
                (fun e => (e.path, fsReadD s0.fs (resolveArg s0.cwd e.path))))))
            (resolveArg s0.cwd (withSuffix archArg ".tar.gz"))),
          alg, s0.clock,
          (walkFiles s0.fs (resolveArg s0.cwd targetArg)).map
            (fun q => ⟨q.drop s0.cwd.length, hash alg (fsReadD s0.fs q)⟩)⟩),
        s0.cwd, s0.clock⟩ := by
    simp only [cmd_backup, hscan]
  set walked := walkFiles s0.fs (resolveArg s0.cwd targetArg) with hw
  set entries := walked.map
    (fun q => (⟨q.drop s0.cwd.length, hash alg (fsReadD s0.fs q)⟩ :
      ManifestFile)) with hent
  set members := entries.map
    (fun e => (e.path, fsReadD s0.fs (resolveArg s0.cwd e.path))) with hmem2
  set archP := resolveArg s0.cwd (withSuffix archArg ".tar.gz") with harp
  set manP := resolveArg s0.cwd (withSuffix archArg ".manifest") with hmp
  set fs1 := fsWrite s0.fs archP (.tar members) with hfs1
  set M := (⟨withSuffix archArg ".tar.gz", hash alg (fsReadD fs1 archP), alg,
    s0.clock, entries⟩ : Manifest) with hM
  set bigfs := fsWrite fs1 manP (.json M) with hbig
  -- per-member facts
  have hmb_spec : ∀ mb ∈ members, ∃ q ∈ walked,
      mb.1 = q.drop s0.cwd.length ∧ mb.2 = fsReadD s0.fs q ∧
      s0.cwd ++ mb.1 = q := by
    intro mb hmb
    obtain ⟨e, he, rfl⟩ := List.mem_map.mp hmb
    obtain ⟨q, hq, rfl⟩ := List.mem_map.mp he
    have hqeq : s0.cwd ++ q.drop s0.cwd.length = q :=
      prefix_drop_append (List.isPrefixOf_iff_prefix.mp (hqpre q hq))
    have hclean : cleanPath (s0.cwd ++ q.drop s0.cwd.length) = true := by
      rw [hqeq]
      exact hqclean q hq
    exact ⟨q, hq, rfl, by rw [resolveArg_clean hclean, hqeq], hqeq⟩
  have hmemclean : ∀ mb ∈ members, cleanPath mb.1 = true ∧ mb.1 ≠ [] := by
    intro mb hmb
    obtain ⟨q, hq, h1, _, _⟩ := hmb_spec mb hmb
    exact ⟨h1 ▸ cleanPath_drop (hqclean q hq) _, h1 ▸ hqlong q hq⟩
  -- reads through both backup writes are untouched at walked files
  have hbigread : ∀ q ∈ walked, fsRead bigfs q = fsRead s0.fs q := by
    intro q hq
    rw [hbig, fsRead_fsWrite_ne (hqne q hq).1, hfs1,
      fsRead_fsWrite_ne (hqne q hq).2]
  -- hypotheses of the restore lemma
  have hmanread : fsRead bigfs manP = some (.json M) := by
    rw [hbig]
    exact fsRead_fsWrite_self _ _ _
  have harchread : fsRead bigfs (resolveArg s0.cwd M.archive_name) =
      some (.tar members) := by
    have : resolveArg s0.cwd M.archive_name = archP := by rw [hM]
    rw [this, hbig,
      fsRead_fsWrite_ne (Ne.symm (hmp ▸ harp ▸ manifest_tarball_path_ne s0.cwd archArg)),
      hfs1]
    exact fsRead_fsWrite_self _ _ _
  have hsum2 : hash M.checksum_algorithm (.tar members) = M.checksum := by
    rw [hM]
    simp only
    rw [hfs1]
    simp [fsReadD, fsRead_fsWrite_self]
  have hempty2 : ∀ p ∈ bigfs.map (fun kv => kv.1),
      ¬(s0.cwd ++ rootArg) <+: p := by
    rw [hs1] at hempty
    simp only at hempty
    intro p hp hpre
    obtain ⟨kv, hkv, rfl⟩ := List.mem_map.mp hp
    have hb := List.all_eq_true.mp hempty kv hkv
    rw [List.isPrefixOf_iff_prefix.mpr hpre] at hb
    simp at hb
  have hnames2 : ∀ mb ∈ members, mb.1 ∈ M.files.map (fun f => f.path) := by
    intro mb hmb
    obtain ⟨e, he, rfl⟩ := List.mem_map.mp hmb
    exact List.mem_map.mpr ⟨e, he, rfl⟩
  have hkeys2 : ∀ f ∈ M.files, f.path ∈ members.map (fun mb => mb.1) := by
    intro f hf
    exact List.mem_map.mpr
      ⟨(f.path, fsReadD s0.fs (resolveArg s0.cwd f.path)),
        List.mem_map.mpr ⟨f, hf, rfl⟩, rfl⟩
  have hcontent2 : ∀ mb ∈ members, fsRead bigfs (s0.cwd ++ mb.1) = some mb.2 := by
    intro mb hmb
    obtain ⟨q, hq, _, h2, h3⟩ := hmb_spec mb hmb
    obtain ⟨d, hd⟩ := Option.isSome_iff_exists.mp (hqsome q hq)
    rw [h3, hbigread q hq, hd, h2]
    simp [fsReadD, hd]
  have hfiles2 : ∀ f ∈ M.files, f.checksum =
      hash M.checksum_algorithm (fsReadD bigfs (s0.cwd ++ f.path)) := by
    intro f hf
    obtain ⟨q, hq, rfl⟩ := List.mem_map.mp hf
    simp only
    have hqeq : s0.cwd ++ q.drop s0.cwd.length = q :=
      prefix_drop_append (List.isPrefixOf_iff_prefix.mp (hqpre q hq))
    rw [hqeq]
    unfold fsReadD
    rw [hbigread q hq]
  have hmain := cmd_restore_success hash ⟨bigfs, s0.cwd, s0.clock⟩
    (withSuffix archArg ".manifest") rootArg M members hmanread harchread
    hsum2 hcwd hrootc hmemclean hempty2 hnames2 hkeys2 hcontent2 hfiles2
  rw [hs1, hmain]
  -- the per-file conclusion
  have hrelclean : cleanPath rel = true := by
    have h := hqclean _ hrel
    rw [cleanPath_append, Bool.and_eq_true] at h
    exact h.2
  have hrootclean : cleanPath (s0.cwd ++ rootArg) = true := by
    rw [cleanPath_append, hcwd, hrootc]; rfl
  have hroot2 : resolveArg s0.cwd rootArg = s0.cwd ++ rootArg :=
    resolveArg_clean hrootclean
  obtain ⟨d, hd⟩ := Option.isSome_iff_exists.mp (hqsome _ hrel)
  refine ⟨rfl, rfl, rfl, ?_, by rw [hd]; rfl⟩
  simp only
  rw [hd]
  apply fsRead_foldl_write_last
    (fun mb => extTarget (resolveArg s0.cwd rootArg) mb.1)
  · -- some member extracts to this destination
    have hdropq : (s0.cwd ++ rel).drop s0.cwd.length = rel := List.drop_left _ _
    refine ⟨((s0.cwd ++ rel).drop s0.cwd.length,
      fsReadD s0.fs (resolveArg s0.cwd ((s0.cwd ++ rel).drop s0.cwd.length))),
      List.mem_map.mpr ⟨⟨(s0.cwd ++ rel).drop s0.cwd.length,
        hash alg (fsReadD s0.fs (s0.cwd ++ rel))⟩,
        List.mem_map.mpr ⟨s0.cwd ++ rel, hrel, rfl⟩, rfl⟩, ?_⟩
    simp only [hdropq]
    rw [hroot2, extTarget_clean hrootclean hrelclean]
  · -- every member extracting there carries the original bytes
    intro mb hmb he
    obtain ⟨q, hq, _, h2, h3⟩ := hmb_spec mb hmb
    have he2 : extTarget (resolveArg s0.cwd rootArg) mb.1 =
        (s0.cwd ++ rootArg) ++ rel := he
    rw [hroot2, extTarget_clean hrootclean (hmemclean mb hmb).1] at he2
    have hmb1 : mb.1 = rel := List.append_cancel_left he2
    rw [h2, show q = s0.cwd ++ rel by rw [← h3, hmb1]]
    simp [fsReadD, hd]

theorem backup_restore_roundtrip_witness :
    (cmd_restore hashStub (cmd_backup hashStub sysRT ["t"] ["arc"] "sha1").sys
        (withSuffix ["arc"] ".manifest") ["r"]).res = .exit EX_OK ∧
    (cmd_restore hashStub (cmd_backup hashStub sysRT ["t"] ["arc"] "sha1").sys
        (withSuffix ["arc"] ".manifest") ["r"]).out =
      ["Backup restored successfully"] ∧
    (cmd_restore hashStub (cmd_backup hashStub sysRT ["t"] ["arc"] "sha1").sys
        (withSuffix ["arc"] ".manifest") ["r"]).err = [] ∧
    fsRead (cmd_restore hashStub
        (cmd_backup hashStub sysRT ["t"] ["arc"] "sha1").sys
        (withSuffix ["arc"] ".manifest") ["r"]).sys.fs
      ((["h"] ++ ["r"]) ++ ["t", "f1"]) =
      fsRead sysRT.fs (["h"] ++ ["t", "f1"]) ∧
    (fsRead sysRT.fs (["h"] ++ ["t", "f1"])).isSome = true :=
  backup_restore_roundtrip hashStub sysRT ["t"] ["arc"] ["r"] "sha1"
    ["t", "f1"] (by decide) (by decide) (by decide) (by decide) (by decide)
    (by decide) (by decide) (by decide)
